import Mathlib

/-!
Verification development for the connect-4 engine (`src/board.rs`,
`src/strategy.rs`, `src/search_for_win.rs`).

The board is embedded exactly as in the source: a 64-bit word (`Nat` here,
all operations stay below `2^63`), nine bits per column — three height bits
followed by six data bits (0 = Red, 1 = Blue).  Functions that can panic in
the source (assertions, `debug_assert!`, `unreachable!`) are embedded as
`Option`-valued functions returning `none` on the panicking paths.
-/

def ROWS : Nat := 6

def COLUMNS : Nat := 7

inductive Piece
  | Empty
  | Red
  | Blue
deriving DecidableEq

/-- The source panics on `Empty`; that case is junk here (`Empty ↦ Empty`) and
every theorem that exercises `opponent` carries a non-`Empty` hypothesis. -/
def Piece.opponent : Piece → Piece
  | Piece.Empty => Piece.Empty
  | Piece.Red => Piece.Blue
  | Piece.Blue => Piece.Red

structure Board where
  val : Nat
deriving DecidableEq

def Board.EMPTY : Board := ⟨0⟩

/-- Bits 0–2 of column `column`'s 9-bit field (`Board::column_height`). -/
def Board.column_height (b : Board) (column : Nat) : Nat :=
  (b.val >>> (column * 9)) &&& 0b111

/-- Piece data bit for `(column, row)` (`Board::get_raw`): 0 = Red, 1 = Blue. -/
def Board.get_raw (b : Board) (column row : Nat) : Piece :=
  if (b.val >>> (column * 9 + row + 3)) &&& 0b1 = 0 then Piece.Red else Piece.Blue

/-- `Board::get_checked`. -/
def Board.get_checked (b : Board) (column row : Nat) : Piece :=
  if b.column_height column ≤ row then Piece.Empty else b.get_raw column row

/-- Bitwise complement on 64-bit words (Rust `!mask` on a `u64`). -/
def u64_not (m : Nat) : Nat := (2 ^ 64 - 1) ^^^ m

/-- `Board::set_blue` (the source's `debug_assert!`s hold at every call site
reached in this development). -/
def Board.set_blue (b : Board) (column height : Nat) : Board :=
  ⟨b.val ||| (1 <<< (column * 9 + 3 + height))⟩

/-- `Board::set_column_height`. -/
def Board.set_column_height (b : Board) (column height : Nat) : Board :=
  ⟨(b.val &&& u64_not (0b111 <<< (column * 9))) ||| (height <<< (column * 9))⟩

/-- `Board::with_place`, release semantics (the raw bit manipulation).  The
source's `debug_assert!` preconditions are modelled by `Board.place`; the
mid-function `debug_assert!` of the `Red` arm checks a bit that is zero on
every well-formed board.  The `Empty` arm is the source's `unreachable!()`
and is excluded by `Board.place` and by hypotheses of the theorems below. -/
def Board.with_place (b : Board) (column : Nat) (piece : Piece) : Board :=
  let height := b.column_height column
  let b1 := b.set_column_height column (height + 1)
  match piece with
  | Piece.Red => b1
  | Piece.Blue => b1.set_blue column height
  | Piece.Empty => b1

/-- `Board::place` including the assertion semantics of `with_place`:
`none` models the panic (empty piece, column out of range, or the source's
"Column is full" check `height < ROWS - 1`). -/
def Board.place (b : Board) (column : Nat) (piece : Piece) : Option Board :=
  if piece ≠ Piece.Empty ∧ column < COLUMNS ∧ b.column_height column < ROWS - 1
  then some (b.with_place column piece)
  else none

/-- `Board::valid_moves`: columns pushed in ascending order; note the source's
bound is `ROWS - 1`, not `ROWS`. -/
def Board.valid_moves (b : Board) : List Nat :=
  (List.range COLUMNS).filter (fun column => b.column_height column < ROWS - 1)

/-- `Board::num_pieces_played`. -/
def Board.num_pieces_played (b : Board) : Nat :=
  ((List.range COLUMNS).map (fun column => b.column_height column)).sum

/-- Fuel-driven population count; `count_ones n` below fixes the fuel at 64,
which is exact on the whole `u64` domain of the source. -/
def count_ones_fuel : Nat → Nat → Nat
  | 0, _ => 0
  | fuel + 1, n => if n = 0 then 0 else n % 2 + count_ones_fuel fuel (n / 2)

/-- `u64::count_ones`. -/
def count_ones (n : Nat) : Nat := count_ones_fuel 64 n

/-- The per-column masked data word of `Board::next_player`:
`(self.0 >> (3 + column * 9)) & (0b111111 >> (6 - height))`. -/
def colMaskedData (b : Board) (column : Nat) : Nat :=
  (b.val >>> (3 + column * 9)) &&& (0b111111 >>> (6 - b.column_height column))

/-- Blue-piece count of `Board::next_player` (the source skips height-0
columns; their term is 0, so the sum is unchanged). -/
def bluePieces (b : Board) : Nat :=
  ((List.range COLUMNS).map (fun column => count_ones (colMaskedData b column))).sum

/-- Red-piece count of `Board::next_player` (`height - ones` per column). -/
def redPieces (b : Board) : Nat :=
  ((List.range COLUMNS).map
    (fun column => b.column_height column - count_ones (colMaskedData b column))).sum

/-- `Board::next_player`; `none` models the parity assertion firing. -/
def Board.next_player (b : Board) : Option Piece :=
  if redPieces b = bluePieces b then some Piece.Red
  else if redPieces b = bluePieces b + 1 then some Piece.Blue
  else none

/-- Cell `repr[row][col]` of `Board::to_array` (equal to
`get_checked(col, ROWS - 1 - row)`; the source writes the cells below the
column height and leaves the rest `Empty`, which `get_checked` reproduces). -/
def Board.cellAt (b : Board) (row col : Nat) : Piece :=
  b.get_checked col (ROWS - 1 - row)

/-- `Board::to_array` as a row-major list of rows. -/
def Board.toArray (b : Board) : List (List Piece) :=
  (List.range ROWS).map (fun row => (List.range COLUMNS).map (fun col => b.cellAt row col))

/-- `Board::check_four_pieces`. -/
def check_four_pieces (p0 p1 p2 p3 : Piece) : Option Piece :=
  if p0 ≠ Piece.Empty ∧ p0 = p1 ∧ p1 = p2 ∧ p2 = p3 then some p0 else none

/-- `Board::check_rows` (via `check_line_in_array` on each row). -/
def Board.check_rows (b : Board) : Option Piece :=
  (List.range ROWS).findSome? (fun row =>
    (List.range (COLUMNS - 3)).findSome? (fun col =>
      check_four_pieces (b.cellAt row col) (b.cellAt row (col + 1))
        (b.cellAt row (col + 2)) (b.cellAt row (col + 3))))

/-- `Board::check_columns`. -/
def Board.check_columns (b : Board) : Option Piece :=
  (List.range COLUMNS).findSome? (fun col =>
    (List.range (ROWS - 3)).findSome? (fun row =>
      check_four_pieces (b.cellAt row col) (b.cellAt (row + 1) col)
        (b.cellAt (row + 2) col) (b.cellAt (row + 3) col)))

/-- `Board::check_diagonals` (positive slope first, then negative slope). -/
def Board.check_diagonals (b : Board) : Option Piece :=
  match (List.range' 3 (ROWS - 3)).findSome? (fun row =>
    (List.range (COLUMNS - 3)).findSome? (fun col =>
      check_four_pieces (b.cellAt row col) (b.cellAt (row - 1) (col + 1))
        (b.cellAt (row - 2) (col + 2)) (b.cellAt (row - 3) (col + 3)))) with
  | some w => some w
  | none =>
    (List.range (ROWS - 3)).findSome? (fun row =>
      (List.range (COLUMNS - 3)).findSome? (fun col =>
        check_four_pieces (b.cellAt row col) (b.cellAt (row + 1) (col + 1))
          (b.cellAt (row + 2) (col + 2)) (b.cellAt (row + 3) (col + 3))))

/-- `Board::has_winner`: rows, then columns, then diagonals. -/
def Board.has_winner (b : Board) : Option Piece :=
  match b.check_rows with
  | some w => some w
  | none =>
    match b.check_columns with
    | some w => some w
    | none => b.check_diagonals

/-- `Board::winning_moves`; `none` models the `assert!(has_winner().is_none())`
panic.  The hypothetical placements use `with_place` on columns drawn from
`valid_moves`, where the placement assertions hold (`place_eq_of_valid`). -/
def Board.winning_moves (b : Board) (piece : Piece) : Option (List Nat) :=
  if b.has_winner = none then
    some ((b.valid_moves).filter (fun m => (b.with_place m piece).has_winner = some piece))
  else none

/-- `Board::all_future_boards`: the source maps `place` over `valid_moves`;
on valid moves the placement assertions hold for non-`Empty` pieces
(`place_eq_of_valid`), so the unchecked `with_place` is used here. -/
def Board.all_future_boards (b : Board) (piece : Piece) : List Board :=
  (b.valid_moves).map (fun col => b.with_place col piece)

/-! ## Strategy stack (`src/strategy.rs`) -/

/-- The `Strategy` enum: a `Layer` prunes the candidate list, a `Decision`
may commit to one move.  The trait objects are modelled as functions. -/
inductive Strategy
  | layer (prune : Board → List Nat → List Nat)
  | decision (choose : Board → List Nat → Option Nat)

/-- Loop body of `StrategyStack::evaluate_options`: threads the candidate
list through the stages; `none` models the `assert!(options.contains(&choice))`
panic.  A `Layer`'s result replaces the candidates only when non-empty, and
after every stage a singleton candidate list is returned immediately. -/
def evalGo (board : Board) : List Strategy → List Nat → Option (List Nat)
  | [], options => some options
  | Strategy.layer prune :: rest, options =>
    let newOptions := prune board options
    let options' := if newOptions = [] then options else newOptions
    if options'.length = 1 then some options' else evalGo board rest options'
  | Strategy.decision choose :: rest, options =>
    match choose board options with
    | some c => if c ∈ options then some [c] else none
    | none => if options.length = 1 then some options else evalGo board rest options

/-- `StrategyStack::evaluate_options`; `none` models the initial
`assert!(!options.is_empty())` panic (and the contains-assertion inside). -/
def evaluate_options (board : Board) (strategies : List Strategy) : Option (List Nat) :=
  if board.valid_moves = [] then none else evalGo board strategies board.valid_moves

/-! ### `AvoidInescapableTraps` -/

/-- Inner reply loop of `AvoidInescapableTraps::prune_from`.  Note the
source computes `next_board` (the board after the opponent's reply) but then
tests `test_board`; the unused binding is kept to mirror the source.
`some true` = the candidate is skipped (`continue 'candidate_loop`),
`some false` = the candidate survives the loop, `none` = panic propagated
from `winning_moves`. -/
def aitInner (piece : Piece) (test_board : Board) : List Nat → Option Bool
  | [] => some false
  | next_col :: rest =>
    let _next_board := test_board.with_place next_col piece.opponent
    if test_board.has_winner = some piece.opponent then some true
    else
      match test_board.winning_moves piece.opponent with
      | none => none
      | some wm => if wm.length > 1 then some true else aitInner piece test_board rest

/-- Candidate loop of `AvoidInescapableTraps::prune_from`. -/
def aitGo (piece : Piece) (board : Board) : List Nat → List Nat → Option (List Nat)
  | allowed, [] => some allowed
  | allowed, col :: rest =>
    let test_board := board.with_place col piece
    if test_board.has_winner = some piece then aitGo piece board (allowed ++ [col]) rest
    else
      match aitInner piece test_board test_board.valid_moves with
      | none => none
      | some true => aitGo piece board allowed rest
      | some false => aitGo piece board (allowed ++ [col]) rest

/-- `AvoidInescapableTraps::prune_from`. -/
def AvoidInescapableTraps.prune_from (piece : Piece) (board : Board) (options : List Nat) :
    Option (List Nat) :=
  aitGo piece board [] options

/-! ### `SearchForWin` (plain, `src/strategy.rs`) -/

/-- The `any` over the searching player's responses inside
`SearchForWin::has_guaranteed_win`; `none` propagates a panic. -/
def sfwAny (recur : Board → Option Bool) : List Board → Option Bool
  | [] => some false
  | b :: rest =>
    match recur b with
    | none => none
    | some true => some true
    | some false => sfwAny recur rest

/-- The `all` over the opponent's replies inside
`SearchForWin::has_guaranteed_win`. -/
def sfwAll (recur : Board → Option Bool) (piece : Piece) : List Board → Option Bool
  | [] => some true
  | eb :: rest =>
    match sfwAny recur (eb.all_future_boards piece) with
    | none => none
    | some false => some false
    | some true => sfwAll recur piece rest

/-- `SearchForWin::has_guaranteed_win`; `none` models the
`assert!(board.next_player() == self.piece.opponent())` panic. -/
def SearchForWin.has_guaranteed_win (piece : Piece) (depth : Nat) (board : Board) :
    Option Bool :=
  if board.next_player ≠ some piece.opponent then none
  else if board.has_winner = some piece then some true
  else
    match depth with
    | 0 => some false
    | d + 1 =>
      sfwAll (fun b => SearchForWin.has_guaranteed_win piece d b) piece
        (board.all_future_boards piece.opponent)

/-- Candidate loop of `SearchForWin::choose` (after the piece-count guard). -/
def sfwChooseGo (piece : Piece) (depth : Nat) (board : Board) : List Nat → Option (Option Nat)
  | [] => some none
  | col :: rest =>
    match board.place col piece with
    | none => none
    | some b =>
      match SearchForWin.has_guaranteed_win piece depth b with
      | none => none
      | some true => some (some col)
      | some false => sfwChooseGo piece depth board rest

/-- `SearchForWin::choose`: declines outright when fewer than
`MIN_PIECES_PLAYED = 20` pieces are on the board.  The outer `Option` models
panics; the inner one is the decider's decline/commit result. -/
def SearchForWin.choose (piece : Piece) (depth : Nat) (board : Board) (options : List Nat) :
    Option (Option Nat) :=
  if board.num_pieces_played < 20 then some none
  else sfwChooseGo piece depth board options

/-! ### `SearchForWinCache` (`src/search_for_win.rs`) -/

structure CacheEntry where
  depth_searched_at : Nat
  forced_win : Option Bool
deriving DecidableEq

/-- The transposition table, modelled as an association list whose lookup
returns the most recent insertion for a key — observationally the
`HashMap` of the source (the source never iterates the map). -/
def SFWCache := List (Board × CacheEntry)

instance : DecidableEq SFWCache := inferInstanceAs (DecidableEq (List (Board × CacheEntry)))

def cacheLookup : SFWCache → Board → Option CacheEntry
  | [], _ => none
  | (b', e) :: rest, b => if b' = b then some e else cacheLookup rest b

def cacheInsert (c : SFWCache) (b : Board) (e : CacheEntry) : SFWCache := (b, e) :: c

/-- Response loop of `SearchForWinCache::has_guaranteed_win`.
`inl c` = the search hit its horizon: an unknown entry for `board` at the
current `depth` was inserted and the whole call aborts with unknown (the
source's `res.is_none()` branch, including the two assertions on the entry
it replaces); `inr (found, c)` = loop finished, `found` records whether a
winning response was found; `none` = panic. -/
def sfwcResp (recur : SFWCache → Board → Nat → Option (Option Bool × SFWCache))
    (depth : Nat) (board eb : Board) :
    SFWCache → List Nat → Option (SFWCache ⊕ Bool × SFWCache)
  | c, [] => some (Sum.inr (false, c))
  | c, col :: rest =>
    match recur c eb col with
    | none => none
    | some (some true, c') => some (Sum.inr (true, c'))
    | some (some false, c') => sfwcResp recur depth board eb c' rest
    | some (none, c') =>
      match cacheLookup c' board with
      | some old =>
        if old.depth_searched_at < depth ∧ old.forced_win = none
        then some (Sum.inl (cacheInsert c' board ⟨depth, none⟩))
        else none
      | none => some (Sum.inl (cacheInsert c' board ⟨depth, none⟩))

/-- Opponent-reply loop of `SearchForWinCache::has_guaranteed_win`.  An
immediate opponent win returns `Some(false)` with the cache untouched; a
reply with no winning response stores a definite no-forced-win entry; if
every reply is survived, a definite win entry is stored. -/
def sfwcEnemy (recur : SFWCache → Board → Nat → Option (Option Bool × SFWCache))
    (piece : Piece) (depth : Nat) (board : Board) :
    SFWCache → List Board → Option (Option Bool × SFWCache)
  | c, [] => some (some true, cacheInsert c board ⟨0, some true⟩)
  | c, eb :: rest =>
    if eb.has_winner = some piece.opponent then some (some false, c)
    else
      match sfwcResp recur depth board eb c eb.valid_moves with
      | none => none
      | some (Sum.inl c') => some (none, c')
      | some (Sum.inr (found, c')) =>
        if found then sfwcEnemy recur piece depth board c' rest
        else some (some false, cacheInsert c' board ⟨0, some false⟩)

/-- `SearchForWinCache::has_guaranteed_win` with the table threaded
explicitly; `none` models the entry assertion
`assert!(prior.next_player() == self.piece)` (and panics from deeper calls). -/
def SearchForWinCache.has_guaranteed_win (piece : Piece) (depth : Nat) (cache : SFWCache)
    (prior : Board) (move_to_test : Nat) : Option (Option Bool × SFWCache) :=
  if prior.next_player ≠ some piece then none
  else
    match prior.place move_to_test piece with
    | none => none
    | some board =>
      if board.has_winner = some piece then some (some true, cache)
      else
        match depth with
        | 0 => some (none, cache)
        | d + 1 =>
          match cacheLookup cache board with
          | some e =>
            if e.forced_win = some true then some (some true, cache)
            else if e.forced_win = some false then some (some false, cache)
            else if d + 1 ≤ e.depth_searched_at then some (none, cache)
            else
              sfwcEnemy (fun c pb m => SearchForWinCache.has_guaranteed_win piece d c pb m)
                piece (d + 1) board cache (board.all_future_boards piece.opponent)
          | none =>
            sfwcEnemy (fun c pb m => SearchForWinCache.has_guaranteed_win piece d c pb m)
              piece (d + 1) board cache (board.all_future_boards piece.opponent)

/-- Candidate loop of `SearchForWinCache::choose` (the table persists across
candidates; there is no minimum-piece guard in this variant). -/
def sfwcChooseGo (piece : Piece) (depth : Nat) :
    SFWCache → Board → List Nat → Option (Option Nat × SFWCache)
  | c, _, [] => some (none, c)
  | c, board, col :: rest =>
    match SearchForWinCache.has_guaranteed_win piece depth c board col with
    | none => none
    | some (res, c') =>
      if res = some true then some (some col, c') else sfwcChooseGo piece depth c' board rest

/-- `SearchForWinCache::choose`. -/
def SearchForWinCache.choose (piece : Piece) (depth : Nat) (cache : SFWCache)
    (board : Board) (options : List Nat) : Option (Option Nat × SFWCache) :=
  sfwcChooseGo piece depth cache board options

/-! ## Text serialization (`Board::short_string`, `Board::from`,
`Board::from_array`) -/

/-- Row renderer of `Board::short_string`: empty cells are buffered as
`pending` spaces, flushed only before the next piece, so trailing spaces are
never emitted. -/
def renderRowGo : Nat → List Piece → List Char
  | _, [] => []
  | pending, Piece.Empty :: rest => renderRowGo (pending + 1) rest
  | pending, Piece.Red :: rest => List.replicate pending ' ' ++ 'R' :: renderRowGo 0 rest
  | pending, Piece.Blue :: rest => List.replicate pending ' ' ++ 'B' :: renderRowGo 0 rest

/-- The row loop of `Board::short_string`: a `'/'` after every row except the
last. -/
def renderRows : List (List Piece) → List Char
  | [] => []
  | [row] => renderRowGo 0 row
  | row :: rest => renderRowGo 0 row ++ '/' :: renderRows rest

/-- `Board::short_string` (the string is modelled as its character list). -/
def Board.short_string (b : Board) : List Char := '!' :: renderRows b.toArray

/-- `str::split` on `'/'`. -/
def splitSlash : List Char → List (List Char)
  | [] => [[]]
  | ch :: rest =>
    if ch = '/' then [] :: splitSlash rest
    else
      match splitSlash rest with
      | line :: lines => (ch :: line) :: lines
      | [] => [[ch]]

/-- Character decoding of `Board::from`; `none` models the
`panic!("Invalid character")`. -/
def charPiece : Char → Option Piece
  | ' ' => some Piece.Empty
  | 'R' => some Piece.Red
  | 'B' => some Piece.Blue
  | _ => none

/-- Decode a line's characters in order (the source's indexed assignment
loop), propagating the invalid-character panic. -/
def parseChars : List Char → Option (List Piece)
  | [] => some []
  | ch :: rest =>
    match charPiece ch, parseChars rest with
    | some p, some ps => some (p :: ps)
    | _, _ => none

/-- One line of `Board::from`: the length assertion, then the character
loop; positions beyond the line keep the initial `Empty`. -/
def parseRow (line : List Char) : Option (List Piece) :=
  if line.length ≤ COLUMNS then
    (parseChars line).map (fun ps => ps ++ List.replicate (COLUMNS - line.length) Piece.Empty)
  else none

def parseRows : List (List Char) → Option (List (List Piece))
  | [] => some []
  | l :: rest =>
    match parseRow l, parseRows rest with
    | some r, some rs => some (r :: rs)
    | _, _ => none

/-- Total piece count over the parsed array (the balance `debug_assert!` of
`Board::from`). -/
def countPiece (arr : List (List Piece)) (p : Piece) : Nat :=
  (arr.map (fun row => row.count p)).sum

/-- Bottom-up cell list of one column of the array, `arr[ROWS - 1 - r][c]`
(out-of-shape indices default to `Empty`; the source's arrays are exactly
6 × 7). -/
def colCells (arr : List (List Piece)) (c : Nat) : List Piece :=
  (List.range ROWS).map (fun r => (arr.getD (ROWS - 1 - r) []).getD c Piece.Empty)

/-- Column loop body of `Board::from_array`: walk up from the bottom until
the first `Empty`, setting blue bits, then store the height.  The `Red` arm's
`debug_assert!(get_raw == Red)` always holds during this construction (the
bit in question is still zero) and is not modelled. -/
def fromArrayColGo (c : Nat) : Board → Nat → List Piece → Board
  | b, h, [] => b.set_column_height c h
  | b, h, Piece.Empty :: _ => b.set_column_height c h
  | b, h, Piece.Red :: rest => fromArrayColGo c b (h + 1) rest
  | b, h, Piece.Blue :: rest => fromArrayColGo c (b.set_blue c h) (h + 1) rest

/-- `Board::from_array`. -/
def Board.from_array (arr : List (List Piece)) : Board :=
  (List.range COLUMNS).foldl (fun b c => fromArrayColGo c b 0 (colCells arr c)) Board.EMPTY

/-- `Board::from`; `none` models the panics: missing `'!'`, a row count
other than `ROWS`, a row longer than `COLUMNS`, an invalid character, or the
balance `debug_assert!`. -/
def Board.from_string (s : List Char) : Option Board :=
  match s with
  | '!' :: rest =>
    let lines := splitSlash rest
    if lines.length = ROWS then
      match parseRows lines with
      | some arr =>
        if countPiece arr Piece.Red = countPiece arr Piece.Blue ∨
            countPiece arr Piece.Red = countPiece arr Piece.Blue + 1
        then some (Board.from_array arr)
        else none
      | none => none
    else none
  | _ => none

/-! ## Invariants and concrete boards -/

/-- Raw six data bits of a column (mask `0b111111`, independent of the
stored height). -/
def dataBits (b : Board) (c : Nat) : Nat := (b.val >>> (c * 9 + 3)) &&& 0b111111

/-- Representation well-formedness: the word fits the 63 used bits, every
height is at most `ROWS`, and the data bits at and above a column's height
are zero (the source keeps them "padded with 0s"). -/
def Wf (b : Board) : Prop :=
  b.val < 2 ^ 63 ∧ ∀ c, c < COLUMNS → b.column_height c ≤ ROWS ∧
    dataBits b c < 2 ^ b.column_height c

instance (b : Board) : Decidable (Wf b) := by
  unfold Wf
  infer_instance

/-- Boards reachable from the empty board by repeatedly placing the piece
`next_player` returns into one of the board's valid moves. -/
inductive Reachable : Board → Prop
  | empty : Reachable Board.EMPTY
  | step {b : Board} {p : Piece} {c : Nat} : Reachable b → b.next_player = some p →
      c ∈ b.valid_moves → Reachable (b.with_place c p)

-- Column 0 filled to height 5 (R, B, R, B, R from the bottom): the height is
-- below `ROWS = 6`, yet the source's `ROWS - 1` bound treats the column as full.
def heightFiveBoard : Board :=
  ((((Board.EMPTY.with_place 0 Piece.Red).with_place 0 Piece.Blue).with_place 0
      Piece.Red).with_place 0 Piece.Blue).with_place 0 Piece.Red

-- Bottom row R _ B B _ _ R.  After Red plays column 0, Blue's reply at column 4
-- builds the open three B B B with both completions (columns 1 and 5) empty.
def aitBoard : Board :=
  (((Board.EMPTY.with_place 0 Piece.Red).with_place 2 Piece.Blue).with_place 6
      Piece.Red).with_place 3 Piece.Blue

-- Blue column 0 of height 3, Red on columns 2, 4, 6; Red to move.  After Red
-- plays column 6, Blue's first legal reply (column 0) wins at once.
def enemyWinPrior : Board :=
  (((((Board.EMPTY.with_place 0 Piece.Blue).with_place 0 Piece.Blue).with_place 0
      Piece.Blue).with_place 2 Piece.Red).with_place 4 Piece.Red).with_place 6 Piece.Red

-- Six pieces: columns 0, 1, 2 hold R below B; Red completes the bottom row at
-- column 3.
def earlyWinBoard : Board :=
  (((((Board.EMPTY.with_place 0 Piece.Red).with_place 0 Piece.Blue).with_place 1
      Piece.Red).with_place 1 Piece.Blue).with_place 2 Piece.Red).with_place 2 Piece.Blue

def stack5 (b : Board) (c : Nat) (p0 p1 p2 p3 p4 : Piece) : Board :=
  ((((b.with_place c p0).with_place c p1).with_place c p2).with_place c p3).with_place c p4

-- Twenty pieces, Red to move: columns 0 and 6 are B R B R B, columns 2 and 3
-- are R B R B R (all four therefore full for `valid_moves`), and the bottom
-- cells of columns 1, 4, 5 are empty.  Red playing column 4 makes the bottom
-- row R R R on columns 2–4 with both completions open: every Blue reply
-- (columns 1, 4, 5) leaves Red an immediate winning response, but against the
-- reply at column 1 the lowest-numbered response (column 1) does not win.
def twentyBoard : Board :=
  ((((stack5 Board.EMPTY 0 Piece.Blue Piece.Red Piece.Blue Piece.Red Piece.Blue)
    |> fun b => stack5 b 2 Piece.Red Piece.Blue Piece.Red Piece.Blue Piece.Red)
    |> fun b => stack5 b 3 Piece.Red Piece.Blue Piece.Red Piece.Blue Piece.Red)
    |> fun b => stack5 b 6 Piece.Blue Piece.Red Piece.Blue Piece.Red Piece.Blue)

-- Data for the cache-semantics witnesses: the board after Red's first move,
-- and a table holding an unknown entry for it searched at depth 5.
def oneRedBoard : Board := Board.EMPTY.with_place 0 Piece.Red

def unknownCache : SFWCache := [(oneRedBoard, ⟨5, none⟩)]

-- A small balanced board for the round-trip witness.
def rtBoard : Board :=
  ((Board.EMPTY.with_place 0 Piece.Red).with_place 1 Piece.Blue).with_place 0 Piece.Red

/-! ## Basic lemmas -/

/-- On a valid move with a non-empty piece, `place`'s assertions hold and it
returns the `with_place` board. -/
theorem place_eq_of_valid {b : Board} {c : Nat} {p : Piece} (hc : c ∈ b.valid_moves)
    (hp : p ≠ Piece.Empty) : b.place c p = some (b.with_place c p) := by
  simp only [Board.valid_moves, List.mem_filter, List.mem_range, decide_eq_true_eq] at hc
  simp [Board.place, hp, hc.1, hc.2]

/-! ## Claim theorems -/

/-- C1: the specification says `valid_moves` contains exactly the columns of
height below 6; on a board whose column 0 has height 5 (< 6) the code omits
column 0 — its bound is `ROWS - 1 = 5`. -/
theorem valid_moves_omits_height_five_column :
    heightFiveBoard.column_height 0 = 5 ∧ 5 < 6 ∧
    heightFiveBoard.valid_moves = [1, 2, 3, 4, 5, 6] := by decide

/-- C2: the specification says `place` succeeds on every column of height
below 6; on a column of height 5 (< 6) the code's "Column is full" assertion
(`height < ROWS - 1`) fires. -/
theorem place_rejects_height_five_column :
    heightFiveBoard.column_height 0 = 5 ∧ 5 < 6 ∧
    Board.place heightFiveBoard 0 Piece.Red = none := by decide

/-- C3: `AvoidInescapableTraps::prune_from` keeps candidate 0 on `aitBoard`
even though Blue's legal reply at column 4 creates two simultaneous winning
threats (columns 1 and 5) — the inner loop tests `test_board` instead of the
computed `next_board`, so the reply is never examined. -/
theorem avoid_inescapable_traps_ignores_reply :
    AvoidInescapableTraps.prune_from Piece.Red aitBoard [0] = some [0] ∧
    4 ∈ (aitBoard.with_place 0 Piece.Red).valid_moves ∧
    Board.winning_moves ((aitBoard.with_place 0 Piece.Red).with_place 4 Piece.Blue)
      Piece.Blue = some [1, 5] := by decide

/-- C4 (counterexample): on `enemyWinPrior` with move 6, Blue's first reply
wins immediately; the search returns the definite no-forced-win verdict but
the returned table is still the empty one — no entry was stored. -/
theorem hgwC_enemy_win_counterexample :
    SearchForWinCache.has_guaranteed_win Piece.Red 1 [] enemyWinPrior 6
      = some (some false, []) ∧
    cacheLookup [] (enemyWinPrior.with_place 6 Piece.Red) = none := by decide

/-- C4 (amended): when a legal opponent reply wins immediately for the
opponent (here: the first enumerated reply), the search returns the definite
no-forced-win verdict with the table unchanged — it does not store an entry
in this branch. -/
theorem hgwC_enemy_win_no_store (piece : Piece) (d : Nat) (cache : SFWCache)
    (prior board eb : Board) (move : Nat) (rest : List Board)
    (hnp : prior.next_player = some piece)
    (hplace : prior.place move piece = some board)
    (hw : board.has_winner ≠ some piece)
    (hcache : cacheLookup cache board = none ∨
      ∃ e, cacheLookup cache board = some e ∧ e.forced_win = none ∧
        e.depth_searched_at < d + 1)
    (hebs : board.all_future_boards piece.opponent = eb :: rest)
    (hwin : eb.has_winner = some piece.opponent) :
    SearchForWinCache.has_guaranteed_win piece (d + 1) cache prior move
      = some (some false, cache) := by
  unfold SearchForWinCache.has_guaranteed_win
  simp only [hnp, hplace, not_true_eq_false, if_false, ite_not]
  simp only [if_neg hw, hebs]
  rcases hcache with hcl | ⟨e, hcl, hfw, hdepth⟩
  · simp [hcl, sfwcEnemy, hwin]
  · simp [hcl, hfw, Nat.not_le.mpr hdepth, sfwcEnemy, hwin]

/-- C4 (witness): the amended theorem instantiated on `enemyWinPrior`. -/
theorem hgwC_enemy_win_no_store_witness :
    enemyWinPrior.next_player = some Piece.Red ∧
    SearchForWinCache.has_guaranteed_win Piece.Red 1 [] enemyWinPrior 6
      = some (some false, []) :=
  ⟨by decide,
    hgwC_enemy_win_no_store Piece.Red 0 [] enemyWinPrior
      (enemyWinPrior.with_place 6 Piece.Red)
      ((enemyWinPrior.with_place 6 Piece.Red).with_place 0 Piece.Blue) 6
      ([1, 2, 3, 4, 5, 6].map
        (fun col => (enemyWinPrior.with_place 6 Piece.Red).with_place col Piece.Blue))
      (by decide) (by decide) (by decide) (Or.inl (by decide)) (by decide) (by decide)⟩

/-- C6 (counterexample): with only 6 pieces on the board, the cached variant
`SearchForWinCache::choose` still commits to a move — it has no
minimum-piece guard. -/
theorem searchforwincache_choose_ignores_min_pieces :
    earlyWinBoard.num_pieces_played < 20 ∧
    (SearchForWinCache.choose Piece.Red 1 [] earlyWinBoard [3]).map (fun r => r.1)
      = some (some 3) := by decide

/-- C6 (amended): the plain `SearchForWin::choose` always declines when fewer
than 20 pieces have been played. -/
theorem searchforwin_choose_min_pieces (piece : Piece) (depth : Nat) (board : Board)
    (options : List Nat) (h : board.num_pieces_played < 20) :
    SearchForWin.choose piece depth board options = some none := by
  unfold SearchForWin.choose
  simp [h]

/-- C6 (witness): the guard on the empty board. -/
theorem searchforwin_choose_min_pieces_witness :
    Board.EMPTY.num_pieces_played < 20 ∧
    SearchForWin.choose Piece.Red 3 Board.EMPTY [0, 1] = some none :=
  ⟨by decide, searchforwin_choose_min_pieces Piece.Red 3 Board.EMPTY [0, 1] (by decide)⟩

/-- C8: in `StrategyStack::evaluate_options` an empty `prune` result keeps
the candidates unchanged without surfacing an error; a non-empty result
replaces them; end to end, a single all-pruning layer falls back to the
unfiltered `valid_moves`. -/
theorem evaluate_options_fail_open :
    (∀ board f rest options, f board options = [] →
      evalGo board (Strategy.layer f :: rest) options =
        if options.length = 1 then some options else evalGo board rest options) ∧
    (∀ board f rest options, f board options ≠ [] →
      evalGo board (Strategy.layer f :: rest) options =
        if (f board options).length = 1 then some (f board options)
        else evalGo board rest (f board options)) ∧
    (∀ board f, board.valid_moves ≠ [] → f board board.valid_moves = [] →
      evaluate_options board [Strategy.layer f] = some board.valid_moves) := by
  refine ⟨?_, ?_, ?_⟩
  · intro board f rest options h
    simp [evalGo, h]
  · intro board f rest options h
    simp [evalGo, h]
  · intro board f hvm h
    have h1 : evalGo board [Strategy.layer f] board.valid_moves =
        if board.valid_moves.length = 1 then some board.valid_moves
        else evalGo board [] board.valid_moves := by
      simp [evalGo, h]
    rw [evaluate_options, if_neg hvm, h1]
    split <;> simp [evalGo]

/-- C8 (witness): the fail-open step on a concrete two-candidate list with a
layer that prunes everything. -/
theorem evaluate_options_fail_open_witness :
    (fun (_ : Board) (_ : List Nat) => ([] : List Nat)) Board.EMPTY [0, 1] = [] ∧
    evalGo Board.EMPTY [Strategy.layer (fun _ _ => [])] [0, 1] =
      (if ([0, 1] : List Nat).length = 1 then some [0, 1]
       else evalGo Board.EMPTY [] [0, 1]) :=
  ⟨rfl, evaluate_options_fail_open.1 Board.EMPTY (fun _ _ => []) [] [0, 1] rfl⟩

/-- C7 (counterexample): on `twentyBoard` (20 pieces, Red to move, no winner)
with candidate list `[4]` and depth 1, the plain search reports the winning
move 4 while the cached search with a fresh table declines — it aborts on the
first unknown response instead of trying the later winning one. -/
theorem search_choose_divergence_depth_one :
    20 ≤ twentyBoard.num_pieces_played ∧
    twentyBoard.next_player = some Piece.Red ∧
    twentyBoard.has_winner = none ∧
    SearchForWin.choose Piece.Red 1 twentyBoard [4] = some (some 4) ∧
    (SearchForWinCache.choose Piece.Red 1 [] twentyBoard [4]).map (fun r => r.1)
      = some none := by decide

/-- Whenever the response loop aborts with unknown, the cache it returns has
the unknown entry for the current position at the current depth in front. -/
theorem sfwcResp_inl_shape (recur : SFWCache → Board → Nat → Option (Option Bool × SFWCache))
    (depth : Nat) (board eb : Board) :
    ∀ (cols : List Nat) (c c' : SFWCache),
      sfwcResp recur depth board eb c cols = some (Sum.inl c') →
      ∃ ctail, c' = (board, (⟨depth, none⟩ : CacheEntry)) :: ctail := by
  intro cols
  induction cols with
  | nil => intro c c' h; simp [sfwcResp] at h
  | cons col rest ih =>
    intro c c' h
    simp only [sfwcResp] at h
    cases hre : recur c eb col with
    | none => rw [hre] at h; exact absurd h (by simp)
    | some rc =>
      obtain ⟨res, c''⟩ := rc
      rw [hre] at h
      match res with
      | some true => simp at h
      | some false => exact ih c'' c' h
      | none =>
        replace h : (match cacheLookup c'' board with
            | some old =>
              if old.depth_searched_at < depth ∧ old.forced_win = none then
                some (Sum.inl (cacheInsert c'' board (⟨depth, none⟩ : CacheEntry)))
              else none
            | none => some (Sum.inl (cacheInsert c'' board (⟨depth, none⟩ : CacheEntry))))
            = some (Sum.inl c') := h
        cases hlk : cacheLookup c'' board with
        | none =>
          rw [hlk] at h
          replace h : some (Sum.inl (cacheInsert c'' board
              (⟨depth, none⟩ : CacheEntry))) = some (Sum.inl c') := h
          simp only [Option.some.injEq, Sum.inl.injEq] at h
          exact ⟨c'', by rw [← h]; rfl⟩
        | some old =>
          rw [hlk] at h
          replace h : (if old.depth_searched_at < depth ∧ old.forced_win = none
              then some (Sum.inl (cacheInsert c'' board (⟨depth, none⟩ : CacheEntry)))
              else none) = some (Sum.inl c') := h
          by_cases hcond : old.depth_searched_at < depth ∧ old.forced_win = none
          · rw [if_pos hcond] at h
            simp only [Option.some.injEq, Sum.inl.injEq] at h
            exact ⟨c'', by rw [← h]; rfl⟩
          · rw [if_neg hcond] at h
            exact absurd h (by simp)

/-- Whenever the opponent-reply loop returns unknown, the cache it returns
has the unknown entry for the current position at the current depth in
front. -/
theorem sfwcEnemy_none_shape
    (recur : SFWCache → Board → Nat → Option (Option Bool × SFWCache))
    (piece : Piece) (depth : Nat) (board : Board) :
    ∀ (ebs : List Board) (c c' : SFWCache),
      sfwcEnemy recur piece depth board c ebs = some (none, c') →
      ∃ ctail, c' = (board, (⟨depth, none⟩ : CacheEntry)) :: ctail := by
  intro ebs
  induction ebs with
  | nil => intro c c' h; simp [sfwcEnemy] at h
  | cons eb rest ih =>
    intro c c' h
    simp only [sfwcEnemy] at h
    by_cases hwin : eb.has_winner = some piece.opponent
    · rw [if_pos hwin] at h; simp at h
    · rw [if_neg hwin] at h
      cases hresp : sfwcResp recur depth board eb c eb.valid_moves with
      | none => rw [hresp] at h; exact absurd h (by simp)
      | some s =>
        rw [hresp] at h
        match s with
        | Sum.inl c'' =>
          simp only [Option.some.injEq, Prod.mk.injEq, true_and] at h
          exact h ▸ sfwcResp_inl_shape recur depth board eb eb.valid_moves c c'' hresp
        | Sum.inr (found, c'') =>
          by_cases hf : found
          · subst hf; exact ih c'' c' h
          · simp only [Bool.not_eq_true] at hf
            subst hf
            simp at h

/-- Looking up the key just inserted returns the new entry. -/
theorem cacheLookup_insert_self (c : SFWCache) (b : Board) (e : CacheEntry) :
    cacheLookup (cacheInsert c b e) b = some e := by
  simp [cacheInsert, cacheLookup]

/-- C5: with the position reached past the win and depth checks, (a) the
search returns unknown with the table untouched exactly when the table holds
an unknown entry searched at least as deep as the current depth — with a
shallower unknown entry it recomputes; and (b) whenever it returns unknown
out of the recomputation (table miss or shallower unknown entry), the
returned table records an unknown entry for the position whose
`depth_searched_at` equals the current depth. -/
theorem hgwC_unknown_cache_semantics (piece : Piece) (d : Nat) (cache : SFWCache)
    (prior board : Board) (move : Nat)
    (hnp : prior.next_player = some piece)
    (hplace : prior.place move piece = some board)
    (hw : board.has_winner ≠ some piece) :
    (∀ e, cacheLookup cache board = some e → e.forced_win = none →
      (SearchForWinCache.has_guaranteed_win piece (d + 1) cache prior move
          = some (none, cache) ↔ d + 1 ≤ e.depth_searched_at)) ∧
    (∀ c', (cacheLookup cache board = none ∨
        ∃ e, cacheLookup cache board = some e ∧ e.forced_win = none ∧
          e.depth_searched_at < d + 1) →
      SearchForWinCache.has_guaranteed_win piece (d + 1) cache prior move
        = some (none, c') →
      cacheLookup c' board = some ⟨d + 1, none⟩) := by
  have hunfold : SearchForWinCache.has_guaranteed_win piece (d + 1) cache prior move =
      (match cacheLookup cache board with
        | some e =>
          if e.forced_win = some true then some (some true, cache)
          else if e.forced_win = some false then some (some false, cache)
          else if d + 1 ≤ e.depth_searched_at then some (none, cache)
          else
            sfwcEnemy (fun c pb m => SearchForWinCache.has_guaranteed_win piece d c pb m)
              piece (d + 1) board cache (board.all_future_boards piece.opponent)
        | none =>
          sfwcEnemy (fun c pb m => SearchForWinCache.has_guaranteed_win piece d c pb m)
            piece (d + 1) board cache (board.all_future_boards piece.opponent)) := by
    conv_lhs => rw [SearchForWinCache.has_guaranteed_win.eq_def]
    simp only [hnp, hplace, not_true_eq_false, if_false, ite_not, if_true]
    simp only [if_neg hw]
  constructor
  · intro e hcl hfw
    constructor
    · intro hres
      by_contra hlt
      rw [hunfold, hcl] at hres
      simp only [hfw] at hres
      rw [if_neg (by simp), if_neg (by simp), if_neg hlt] at hres
      obtain ⟨ctail, hc⟩ :=
        sfwcEnemy_none_shape _ piece (d + 1) board _ cache cache hres
      have h2 : cacheLookup cache board = some (⟨d + 1, none⟩ : CacheEntry) := by
        rw [hc]; exact cacheLookup_insert_self ctail board _
      rw [hcl] at h2
      have he : e = (⟨d + 1, none⟩ : CacheEntry) := Option.some.inj h2
      exact hlt (by simp [he])
    · intro hle
      rw [hunfold, hcl]
      simp only [hfw]
      rw [if_neg (by simp), if_neg (by simp), if_pos hle]
  · intro c' hc hres
    have hg : sfwcEnemy (fun c pb m => SearchForWinCache.has_guaranteed_win piece d c pb m)
        piece (d + 1) board cache (board.all_future_boards piece.opponent)
        = some (none, c') := by
      rcases hc with hcl | ⟨e, hcl, hfw, hdepth⟩
      · rw [hunfold, hcl] at hres; exact hres
      · rw [hunfold, hcl] at hres
        simp only [hfw] at hres
        rw [if_neg (by simp), if_neg (by simp), if_neg (Nat.not_le.mpr hdepth)] at hres
        exact hres
    obtain ⟨ctail, hshape⟩ :=
      sfwcEnemy_none_shape _ piece (d + 1) board _ cache c' hg
    rw [hshape]
    simp [cacheLookup]

/-- C5 (witness): with an unknown entry searched at depth 5, a depth-1 query
returns unknown with the table untouched. -/
theorem hgwC_unknown_cache_semantics_witness :
    Board.EMPTY.next_player = some Piece.Red ∧
    Board.EMPTY.place 0 Piece.Red = some oneRedBoard ∧
    cacheLookup unknownCache oneRedBoard = some ⟨5, none⟩ ∧
    SearchForWinCache.has_guaranteed_win Piece.Red 1 unknownCache Board.EMPTY 0
      = some (none, unknownCache) :=
  ⟨by decide, by decide, by decide,
    ((hgwC_unknown_cache_semantics Piece.Red 0 unknownCache Board.EMPTY oneRedBoard 0
        (by decide) (by decide) (by decide)).1 ⟨5, none⟩ (by decide) rfl).mpr
      (by decide)⟩

/-! ## Population-count lemmas -/

theorem count_ones_fuel_zero (f : Nat) : count_ones_fuel f 0 = 0 := by
  cases f <;> simp [count_ones_fuel]

theorem count_ones_fuel_congr :
    ∀ f g n, n < 2 ^ f → n < 2 ^ g → count_ones_fuel f n = count_ones_fuel g n := by
  intro f
  induction f with
  | zero =>
    intro g n hf _
    interval_cases n
    simp [count_ones_fuel_zero]
  | succ f ih =>
    intro g n hf hg
    cases g with
    | zero =>
      interval_cases n
      simp [count_ones_fuel_zero]
    | succ g =>
      by_cases hn : n = 0
      · subst hn; simp [count_ones_fuel_zero]
      · have hf2 : n / 2 < 2 ^ f := by
          rw [Nat.div_lt_iff_lt_mul (by omega)]
          calc n < 2 ^ (f + 1) := hf
          _ = 2 ^ f * 2 := by rw [Nat.pow_succ]
        have hg2 : n / 2 < 2 ^ g := by
          rw [Nat.div_lt_iff_lt_mul (by omega)]
          calc n < 2 ^ (g + 1) := hg
          _ = 2 ^ g * 2 := by rw [Nat.pow_succ]
        simp only [count_ones_fuel, if_neg hn]
        rw [ih g (n / 2) hf2 hg2]

/-- Recurrence for `count_ones` on the `u64` range. -/
theorem count_ones_rec (n : Nat) (h : n < 2 ^ 63) :
    count_ones n = n % 2 + count_ones (n / 2) := by
  by_cases hn : n = 0
  · subst hn; simp [count_ones, count_ones_fuel_zero]
  · have hdiv63 : n / 2 < 2 ^ 63 := lt_of_le_of_lt (Nat.div_le_self n 2) h
    have hdiv64 : n / 2 < 2 ^ 64 :=
      lt_of_lt_of_le hdiv63 (Nat.pow_le_pow_right (by omega) (by omega))
    calc count_ones n = count_ones_fuel (63 + 1) n := rfl
    _ = n % 2 + count_ones_fuel 63 (n / 2) := by rw [count_ones_fuel, if_neg hn]
    _ = n % 2 + count_ones (n / 2) := by
        rw [count_ones_fuel_congr 63 64 (n / 2) hdiv63 hdiv64]
        rfl

theorem count_ones_le (k : Nat) (hk : k ≤ 63) :
    ∀ n, n < 2 ^ k → count_ones n ≤ k := by
  induction k with
  | zero =>
    intro n hn
    interval_cases n
    simp [count_ones, count_ones_fuel_zero]
  | succ k ih =>
    intro n hn
    have h63 : n < 2 ^ 63 := lt_of_lt_of_le hn (Nat.pow_le_pow_right (by omega) (by omega))
    rw [count_ones_rec n h63]
    have h2 : n / 2 < 2 ^ k := by
      rw [Nat.div_lt_iff_lt_mul (by omega)]
      calc n < 2 ^ (k + 1) := hn
      _ = 2 ^ k * 2 := by rw [Nat.pow_succ]
    have := ih (by omega) (n / 2) h2
    have := Nat.mod_lt n (y := 2) (by omega)
    omega

theorem count_ones_or_two_pow (k : Nat) (hk : k ≤ 62) :
    ∀ n, n < 2 ^ k → count_ones (n ||| 2 ^ k) = count_ones n + 1 := by
  induction k with
  | zero =>
    intro n hn
    interval_cases n
    decide
  | succ k ih =>
    intro n hn
    have hor : n ||| 2 ^ (k + 1) < 2 ^ 63 :=
      Nat.or_lt_two_pow (lt_of_lt_of_le hn (Nat.pow_le_pow_right (by omega) (by omega)))
        (Nat.pow_lt_pow_right (by omega) (by omega))
    have hn63 : n < 2 ^ 63 := lt_of_lt_of_le hn (Nat.pow_le_pow_right (by omega) (by omega))
    have hmod : 2 ^ (k + 1) % 2 = 0 := by
      rw [Nat.pow_succ]
      exact Nat.mul_mod_left _ _
    have hm2 : (n ||| 2 ^ (k + 1)) % 2 = n % 2 := by
      have hiff := Nat.or_mod_two_eq_one (a := n) (b := 2 ^ (k + 1))
      have ha : n % 2 < 2 := Nat.mod_lt _ (by omega)
      have hb : (n ||| 2 ^ (k + 1)) % 2 < 2 := Nat.mod_lt _ (by omega)
      omega
    have hdiv : (n ||| 2 ^ (k + 1)) / 2 = n / 2 ||| 2 ^ k := by
      rw [Nat.or_div_two]
      congr 1
      rw [Nat.pow_succ, Nat.mul_div_cancel _ (by omega)]
    have h2 : n / 2 < 2 ^ k := by
      rw [Nat.div_lt_iff_lt_mul (by omega)]
      calc n < 2 ^ (k + 1) := hn
      _ = 2 ^ k * 2 := by rw [Nat.pow_succ]
    rw [count_ones_rec _ hor, hm2, hdiv, ih (by omega) (n / 2) h2,
      count_ones_rec n hn63]
    omega

/-! ## Bit-level characterization of the board operations -/

theorem testBit_column_height (b : Board) (c j : Nat) :
    (b.column_height c).testBit j = (b.val.testBit (c * 9 + j) && decide (j < 3)) := by
  unfold Board.column_height
  rw [show (0b111 : Nat) = 2 ^ 3 - 1 from rfl]
  rw [Nat.testBit_and, Nat.testBit_shiftRight, Nat.testBit_two_pow_sub_one]

theorem column_height_lt_eight (b : Board) (c : Nat) : b.column_height c < 8 := by
  unfold Board.column_height
  have := Nat.and_le_right (n := b.val >>> (c * 9)) (m := 0b111)
  omega

theorem testBit_dataBits (b : Board) (c j : Nat) :
    (dataBits b c).testBit j = (b.val.testBit (c * 9 + 3 + j) && decide (j < 6)) := by
  unfold dataBits
  rw [show (0b111111 : Nat) = 2 ^ 6 - 1 from rfl]
  rw [Nat.testBit_and, Nat.testBit_shiftRight, Nat.testBit_two_pow_sub_one]

theorem dataBits_lt_sixtyfour (b : Board) (c : Nat) : dataBits b c < 64 := by
  unfold dataBits
  have := Nat.and_le_right (n := b.val >>> (c * 9 + 3)) (m := 0b111111)
  omega

theorem testBit_set_column_height (b : Board) (c h i : Nat) (hh : h < 8)
    (hb : b.val < 2 ^ 64) :
    (b.set_column_height c h).val.testBit i =
      if c * 9 ≤ i ∧ i < c * 9 + 3 then h.testBit (i - c * 9) else b.val.testBit i := by
  unfold Board.set_column_height u64_not
  rw [show (0b111 : Nat) = 2 ^ 3 - 1 from rfl]
  simp only [Nat.testBit_or, Nat.testBit_and, Nat.testBit_xor, Nat.testBit_shiftLeft,
    Nat.testBit_two_pow_sub_one, ge_iff_le]
  by_cases hin : c * 9 ≤ i ∧ i < c * 9 + 3
  · rw [if_pos hin]
    have e1 : decide (c * 9 ≤ i) = true := by simp [hin.1]
    have e2 : decide (i - c * 9 < 3) = true := by
      have := hin.1
      have := hin.2
      simp
      omega
    by_cases h64 : i < 64
    · have e3 : decide (i < 64) = true := by simp [h64]
      rw [e1, e2, e3]
      simp
    · have e3 : decide (i < 64) = false := by simp [h64]
      have e4 : b.val.testBit i = false :=
        Nat.testBit_lt_two_pow
          (lt_of_lt_of_le hb (Nat.pow_le_pow_right (by omega) (by omega)))
      rw [e1, e2, e3, e4]
      simp
  · rw [if_neg hin]
    rcases Nat.lt_or_ge i (c * 9) with hlt | hge
    · have d1 : decide (c * 9 ≤ i) = false := by simp; omega
      rw [d1]
      by_cases h64 : i < 64
      · have e3 : decide (i < 64) = true := by simp [h64]
        rw [e3]
        simp
      · have e3 : decide (i < 64) = false := by simp [h64]
        have e4 : b.val.testBit i = false :=
          Nat.testBit_lt_two_pow
            (lt_of_lt_of_le hb (Nat.pow_le_pow_right (by omega) (by omega)))
        rw [e3, e4]
        simp
    · have hge3 : c * 9 + 3 ≤ i := by omega
      have d2 : decide (i - c * 9 < 3) = false := by simp; omega
      have e5 : h.testBit (i - c * 9) = false := by
        apply Nat.testBit_lt_two_pow
        calc h < 8 := hh
        _ = 2 ^ 3 := by norm_num
        _ ≤ 2 ^ (i - c * 9) := Nat.pow_le_pow_right (by omega) (by omega)
      rw [d2, e5]
      by_cases h64 : i < 64
      · have e3 : decide (i < 64) = true := by simp [h64]
        rw [e3]
        simp
      · have e3 : decide (i < 64) = false := by simp [h64]
        have e4 : b.val.testBit i = false :=
          Nat.testBit_lt_two_pow
            (lt_of_lt_of_le hb (Nat.pow_le_pow_right (by omega) (by omega)))
        rw [e3, e4]
        simp

theorem testBit_set_blue (b : Board) (c r i : Nat) :
    (b.set_blue c r).val.testBit i = (b.val.testBit i || decide (i = c * 9 + 3 + r)) := by
  unfold Board.set_blue
  rw [Nat.one_shiftLeft]
  simp only [Nat.testBit_or, Nat.testBit_two_pow]
  simp [eq_comm]

theorem column_height_set_column_height (b : Board) (c c' h : Nat) (hh : h < 8)
    (hb : b.val < 2 ^ 64) :
    (b.set_column_height c h).column_height c' =
      if c' = c then h else b.column_height c' := by
  by_cases hc : c' = c
  · subst hc
    rw [if_pos rfl]
    apply Nat.eq_of_testBit_eq
    intro j
    rw [testBit_column_height, testBit_set_column_height b c' h _ hh hb]
    by_cases hj : j < 3
    · rw [if_pos (by omega)]
      have : c' * 9 + j - c' * 9 = j := by omega
      rw [this]
      simp [hj]
    · rw [if_neg (by omega)]
      have e1 : h.testBit j = false := by
        apply Nat.testBit_lt_two_pow
        calc h < 8 := hh
        _ = 2 ^ 3 := by norm_num
        _ ≤ 2 ^ j := Nat.pow_le_pow_right (by omega) (by omega)
      rw [e1]
      simp [hj]
  · rw [if_neg hc]
    apply Nat.eq_of_testBit_eq
    intro j
    rw [testBit_column_height, testBit_column_height,
      testBit_set_column_height b c h _ hh hb]
    by_cases hj : j < 3
    · rw [if_neg (by omega)]
    · simp [hj]

theorem dataBits_set_column_height (b : Board) (c c' h : Nat) (hh : h < 8)
    (hb : b.val < 2 ^ 64) :
    dataBits (b.set_column_height c h) c' = dataBits b c' := by
  apply Nat.eq_of_testBit_eq
  intro j
  rw [testBit_dataBits, testBit_dataBits, testBit_set_column_height b c h _ hh hb]
  by_cases hj : j < 6
  · rw [if_neg (by omega)]
  · simp [hj]

theorem column_height_set_blue (b : Board) (c c' r : Nat) (hr : r < 6) :
    (b.set_blue c r).column_height c' = b.column_height c' := by
  apply Nat.eq_of_testBit_eq
  intro j
  rw [testBit_column_height, testBit_column_height, testBit_set_blue]
  by_cases hj : j < 3
  · have : decide (c' * 9 + j = c * 9 + 3 + r) = false := by simp; omega
    rw [this]
    simp
  · simp [hj]

theorem dataBits_set_blue (b : Board) (c c' r : Nat) (hr : r < 6) :
    dataBits (b.set_blue c r) c' =
      if c' = c then dataBits b c' ||| 2 ^ r else dataBits b c' := by
  by_cases hc : c' = c
  · subst hc
    rw [if_pos rfl]
    apply Nat.eq_of_testBit_eq
    intro j
    rw [testBit_dataBits, Nat.testBit_or, testBit_dataBits, testBit_set_blue,
      Nat.testBit_two_pow]
    by_cases hj : j < 6
    · have e1 : decide (c' * 9 + 3 + j = c' * 9 + 3 + r) = decide (r = j) := by
        by_cases hjr : r = j
        · subst hjr; simp
        · have e2 : decide (c' * 9 + 3 + j = c' * 9 + 3 + r) = false := by simp; omega
          have e3 : decide (r = j) = false := by simp [hjr]
          rw [e2, e3]
      rw [e1]
      simp [hj]
    · have e4 : decide (r = j) = false := by simp; omega
      rw [e4]
      simp [hj]
  · rw [if_neg hc]
    apply Nat.eq_of_testBit_eq
    intro j
    rw [testBit_dataBits, testBit_dataBits, testBit_set_blue]
    by_cases hj : j < 6
    · have : decide (c' * 9 + 3 + j = c * 9 + 3 + r) = false := by
        simp
        omega
      rw [this]
      simp
    · simp [hj]

theorem set_column_height_lt (b : Board) (c h : Nat) (hb : b.val < 2 ^ 63) (hh : h < 8)
    (hc : c < 7) : (b.set_column_height c h).val < 2 ^ 63 := by
  unfold Board.set_column_height
  apply Nat.or_lt_two_pow
  · exact lt_of_le_of_lt Nat.and_le_left hb
  · calc h <<< (c * 9) = h * 2 ^ (c * 9) := Nat.shiftLeft_eq h (c * 9)
    _ < 8 * 2 ^ (c * 9) := by
        have : (0 : Nat) < 2 ^ (c * 9) := Nat.pos_pow_of_pos _ (by omega)
        exact Nat.mul_lt_mul_of_lt_of_le hh (le_refl _) this
    _ = 2 ^ (c * 9 + 3) := by rw [Nat.pow_add]; ring
    _ ≤ 2 ^ 63 := Nat.pow_le_pow_right (by omega) (by omega)

theorem set_blue_lt (b : Board) (c r : Nat) (hb : b.val < 2 ^ 63) (hc : c < 7)
    (hr : r < 6) : (b.set_blue c r).val < 2 ^ 63 := by
  unfold Board.set_blue
  apply Nat.or_lt_two_pow hb
  rw [Nat.one_shiftLeft]
  exact Nat.pow_lt_pow_right (by omega) (by omega)

theorem column_height_with_place (b : Board) (c c' : Nat) (p : Piece)
    (hb : b.val < 2 ^ 63) (hlt : b.column_height c < 6) :
    (b.with_place c p).column_height c' =
      if c' = c then b.column_height c + 1 else b.column_height c' := by
  have hb64 : b.val < 2 ^ 64 := lt_of_lt_of_le hb (Nat.pow_le_pow_right (by omega) (by omega))
  unfold Board.with_place
  cases p
  · exact column_height_set_column_height b c c' _ (by omega) hb64
  · exact column_height_set_column_height b c c' _ (by omega) hb64
  · rw [column_height_set_blue _ c c' _ hlt]
    exact column_height_set_column_height b c c' _ (by omega) hb64

theorem dataBits_with_place (b : Board) (c c' : Nat) (p : Piece)
    (hb : b.val < 2 ^ 63) (hlt : b.column_height c < 6) :
    dataBits (b.with_place c p) c' =
      if c' = c ∧ p = Piece.Blue then dataBits b c' ||| 2 ^ b.column_height c
      else dataBits b c' := by
  have hb64 : b.val < 2 ^ 64 := lt_of_lt_of_le hb (Nat.pow_le_pow_right (by omega) (by omega))
  unfold Board.with_place
  cases p
  · rw [if_neg (by simp)]
    exact dataBits_set_column_height b c c' _ (by omega) hb64
  · rw [if_neg (by simp)]
    exact dataBits_set_column_height b c c' _ (by omega) hb64
  · rw [dataBits_set_blue _ c c' _ hlt,
      dataBits_set_column_height b c c' _ (by omega) hb64]
    by_cases hc : c' = c
    · rw [if_pos hc, if_pos ⟨hc, rfl⟩]
    · rw [if_neg hc, if_neg (by simp [hc])]

theorem with_place_lt (b : Board) (c : Nat) (p : Piece) (hb : b.val < 2 ^ 63)
    (hc : c < 7) (hlt : b.column_height c < 6) : (b.with_place c p).val < 2 ^ 63 := by
  unfold Board.with_place
  cases p
  · exact set_column_height_lt b c _ hb (by omega) hc
  · exact set_column_height_lt b c _ hb (by omega) hc
  · exact set_blue_lt _ c _ (set_column_height_lt b c _ hb (by omega) hc) hc hlt

theorem wf_with_place (b : Board) (c : Nat) (p : Piece) (hwf : Wf b) (hc : c < 7)
    (hlt : b.column_height c < 6) : Wf (b.with_place c p) := by
  obtain ⟨hb, hall⟩ := hwf
  refine ⟨with_place_lt b c p hb hc hlt, ?_⟩
  intro c' hc'
  obtain ⟨hh', hd'⟩ := hall c' hc'
  rw [column_height_with_place b c c' p hb hlt, dataBits_with_place b c c' p hb hlt]
  by_cases hcc : c' = c
  · subst hcc
    obtain ⟨hh, hd⟩ := hall c' hc'
    rw [if_pos rfl]
    constructor
    · unfold ROWS
      omega
    · by_cases hp : p = Piece.Blue
      · rw [if_pos ⟨rfl, hp⟩]
        apply Nat.or_lt_two_pow
        · exact lt_of_lt_of_le hd (Nat.pow_le_pow_right (by omega) (by omega))
        · exact Nat.pow_lt_pow_right (by omega) (by omega)
      · rw [if_neg (by simp [hp])]
        calc dataBits b c' < 2 ^ b.column_height c' := hd
        _ ≤ 2 ^ (b.column_height c' + 1) := Nat.pow_le_pow_right (by omega) (by omega)
  · rw [if_neg hcc, if_neg (by simp [hcc])]
    exact ⟨hh', hd'⟩

/-- On a well-formed board the height-limited mask of `next_player` reads
exactly the raw data bits. -/
theorem colMaskedData_eq (b : Board) (c : Nat) (hwf : Wf b) (hc : c < COLUMNS) :
    colMaskedData b c = dataBits b c := by
  obtain ⟨hb, hall⟩ := hwf
  obtain ⟨hh, hd⟩ := hall c hc
  unfold colMaskedData dataBits
  rw [Nat.add_comm 3 (c * 9)]
  have hmask : (0b111111 >>> (6 - b.column_height c) : Nat)
      = 2 ^ b.column_height c - 1 := by
    unfold ROWS at hh
    interval_cases h : b.column_height c <;> rfl
  rw [hmask, Nat.and_pow_two_sub_one_eq_mod,
    show (0b111111 : Nat) = 2 ^ 6 - 1 from rfl, Nat.and_pow_two_sub_one_eq_mod]
  unfold dataBits at hd
  rw [show (0b111111 : Nat) = 2 ^ 6 - 1 from rfl, Nat.and_pow_two_sub_one_eq_mod] at hd
  have hdvd : (2 ^ b.column_height c : Nat) ∣ 2 ^ 6 :=
    Nat.pow_dvd_pow 2 (by unfold ROWS at hh; omega)
  rw [← Nat.mod_mod_of_dvd _ hdvd]
  exact Nat.mod_eq_of_lt hd

/-- Sum over `List.range n` after changing the summand at one index. -/
theorem sum_map_range_update (n k δ : Nat) (f g : Nat → Nat) (hk : k < n)
    (hne : ∀ i, i < n → i ≠ k → g i = f i) (hkk : g k = f k + δ) :
    ((List.range n).map g).sum = ((List.range n).map f).sum + δ := by
  induction n with
  | zero => omega
  | succ n ih =>
    rw [List.range_succ, List.map_append, List.map_append, List.sum_append,
      List.sum_append]
    by_cases hkn : k = n
    · subst hkn
      have heq : (List.range k).map g = (List.range k).map f := by
        apply List.map_congr_left
        intro i hi
        exact hne i (by simp at hi; omega) (by simp at hi; omega)
      rw [heq]
      simp [hkk]
      omega
    · rw [ih (by omega) (fun i hi hik => hne i (by omega) hik)]
      have : g n = f n := hne n (by omega) (by omega)
      simp [this]
      omega

theorem mem_valid_moves {b : Board} {c : Nat} :
    c ∈ b.valid_moves ↔ c < COLUMNS ∧ b.column_height c < ROWS - 1 := by
  simp [Board.valid_moves, List.mem_filter, List.mem_range]

/-- Effect of one placement of a real piece on the two piece counts used by
`next_player`. -/
theorem counts_with_place (b : Board) (c : Nat) (p : Piece) (hwf : Wf b)
    (hc : c < COLUMNS) (hlt : b.column_height c < 6) (hpe : p ≠ Piece.Empty) :
    redPieces (b.with_place c p) = redPieces b + (if p = Piece.Red then 1 else 0) ∧
    bluePieces (b.with_place c p) = bluePieces b + (if p = Piece.Blue then 1 else 0) := by
  have hb := hwf.1
  have hwf' : Wf (b.with_place c p) := wf_with_place b c p hwf (by exact hc) hlt
  have hd : dataBits b c < 2 ^ b.column_height c := (hwf.2 c hc).2
  have hcnt : count_ones (dataBits b c) ≤ b.column_height c :=
    count_ones_le _ (by omega) _ hd
  have hmask : ∀ c', c' < COLUMNS →
      (¬(c' = c ∧ p = Piece.Blue) ∧
        colMaskedData (b.with_place c p) c' = colMaskedData b c') ∨
      (c' = c ∧ p = Piece.Blue ∧
        colMaskedData (b.with_place c p) c' = colMaskedData b c' ||| 2 ^ b.column_height c) := by
    intro c' hc'
    rw [colMaskedData_eq _ _ hwf' hc', colMaskedData_eq _ _ hwf hc',
      dataBits_with_place b c c' p hb hlt]
    by_cases hcp : c' = c ∧ p = Piece.Blue
    · right
      exact ⟨hcp.1, hcp.2, by rw [if_pos hcp]⟩
    · left
      exact ⟨hcp, by rw [if_neg hcp]⟩
  have hblue : count_ones (dataBits b c ||| 2 ^ b.column_height c)
      = count_ones (dataBits b c) + 1 :=
    count_ones_or_two_pow _ (by omega) _ hd
  have hheights : ∀ c', c' < COLUMNS →
      (b.with_place c p).column_height c' =
        if c' = c then b.column_height c + 1 else b.column_height c' := by
    intro c' _
    exact column_height_with_place b c c' p hb hlt
  constructor
  · unfold redPieces
    apply sum_map_range_update COLUMNS c
      (if p = Piece.Red then 1 else 0) _ _ hc
    · intro i hi hik
      rcases hmask i hi with ⟨_, hsame⟩ | ⟨hic, _, _⟩
      · rw [hsame, hheights i hi, if_neg hik]
      · exact absurd hic hik
    · rw [hheights c hc, if_pos rfl]
      rcases hmask c hc with ⟨hnb, hsame⟩ | ⟨_, hpb, hchg⟩
      · have hpr : p = Piece.Red := by
          cases p
          · exact absurd rfl hpe
          · rfl
          · exact absurd ⟨rfl, rfl⟩ hnb
        rw [hsame, colMaskedData_eq _ _ hwf hc, if_pos hpr]
        omega
      · rw [hchg, colMaskedData_eq _ _ hwf hc, hblue, hpb, if_neg (by simp)]
        omega
  · unfold bluePieces
    apply sum_map_range_update COLUMNS c
      (if p = Piece.Blue then 1 else 0) _ _ hc
    · intro i hi hik
      rcases hmask i hi with ⟨_, hsame⟩ | ⟨hic, _, _⟩
      · rw [hsame]
      · exact absurd hic hik
    · rcases hmask c hc with ⟨hnb, hsame⟩ | ⟨_, hpb, hchg⟩
      · have hpr : p = Piece.Red := by
          cases p
          · exact absurd rfl hpe
          · rfl
          · exact absurd ⟨rfl, rfl⟩ hnb
        rw [hsame, if_neg (by rw [hpr]; simp)]
        omega
      · rw [hchg, colMaskedData_eq _ _ hwf hc, hblue, hpb, if_pos rfl]

theorem next_player_isSome_iff (b : Board) :
    (Board.next_player b).isSome ↔
      (redPieces b = bluePieces b ∨ redPieces b = bluePieces b + 1) := by
  unfold Board.next_player
  by_cases h1 : redPieces b = bluePieces b
  · simp [h1]
  · by_cases h2 : redPieces b = bluePieces b + 1 <;> simp [h1, h2]

/-- Placing the piece that `next_player` returns flips the turn. -/
theorem next_player_with_place (b : Board) (c : Nat) (p : Piece) (hwf : Wf b)
    (hc : c < COLUMNS) (hlt : b.column_height c < 6)
    (hnp : b.next_player = some p) :
    (b.with_place c p).next_player = some p.opponent := by
  unfold Board.next_player at hnp ⊢
  by_cases h1 : redPieces b = bluePieces b
  · rw [if_pos h1] at hnp
    have hp : p = Piece.Red := by injection hnp with h; exact h.symm
    subst hp
    obtain ⟨hr, hb2⟩ := counts_with_place b c Piece.Red hwf hc hlt (by simp)
    rw [if_pos rfl] at hr
    rw [if_neg (by simp)] at hb2
    rw [hr, hb2]
    rw [if_neg (by omega), if_pos (by omega)]
    rfl
  · rw [if_neg h1] at hnp
    by_cases h2 : redPieces b = bluePieces b + 1
    · rw [if_pos h2] at hnp
      have hp : p = Piece.Blue := by injection hnp with h; exact h.symm
      subst hp
      obtain ⟨hr, hb2⟩ := counts_with_place b c Piece.Blue hwf hc hlt (by simp)
      rw [if_neg (by simp)] at hr
      rw [if_pos rfl] at hb2
      rw [hr, hb2]
      rw [if_pos (by omega)]
      rfl
    · rw [if_neg h2] at hnp
      exact absurd hnp (by simp)

theorem reachable_wf {b : Board} (h : Reachable b) : Wf b := by
  induction h with
  | empty => decide
  | @step b' p c _ hnp hcm ih =>
    obtain ⟨hc, hlt⟩ := mem_valid_moves.mp hcm
    exact wf_with_place b' c p ih (by unfold COLUMNS at hc; omega)
      (by unfold ROWS at hlt; omega)

/-- C9: every board reachable by placing `next_player`'s piece into a valid
move keeps the Red/Blue counts equal or Red ahead by one, and `next_player`'s
parity assertion never fires on it. -/
theorem reachable_balanced (b : Board) (h : Reachable b) :
    (redPieces b = bluePieces b ∨ redPieces b = bluePieces b + 1) ∧
    (Board.next_player b).isSome := by
  induction h with
  | empty => exact ⟨Or.inl (by decide), by decide⟩
  | @step b' p c hr hnp hcm _ =>
    have hwf := reachable_wf hr
    obtain ⟨hc, hlt5⟩ := mem_valid_moves.mp hcm
    have hc' : c < COLUMNS := hc
    have hlt : b'.column_height c < 6 := by unfold ROWS at hlt5; omega
    have hnext := next_player_with_place b' c p hwf hc' hlt hnp
    refine ⟨(next_player_isSome_iff _).mp ?_, ?_⟩
    · rw [hnext]
      rfl
    · rw [hnext]
      rfl

/-- C9 (witness): a two-ply reachable board satisfies the invariant. -/
theorem reachable_balanced_witness :
    (redPieces ((Board.EMPTY.with_place 3 Piece.Red).with_place 3 Piece.Blue)
        = bluePieces ((Board.EMPTY.with_place 3 Piece.Red).with_place 3 Piece.Blue) ∨
      redPieces ((Board.EMPTY.with_place 3 Piece.Red).with_place 3 Piece.Blue)
        = bluePieces ((Board.EMPTY.with_place 3 Piece.Red).with_place 3 Piece.Blue) + 1) ∧
    (Board.next_player ((Board.EMPTY.with_place 3 Piece.Red).with_place 3 Piece.Blue)).isSome :=
  reachable_balanced _
    (Reachable.step (Reachable.step Reachable.empty (by decide) (by decide))
      (by decide) (by decide))

theorem place_some_elim {b : Board} {c : Nat} {p : Piece} {b' : Board}
    (h : b.place c p = some b') :
    p ≠ Piece.Empty ∧ c < COLUMNS ∧ b.column_height c < ROWS - 1 ∧
      b' = b.with_place c p := by
  unfold Board.place at h
  split at h
  · rename_i hcond
    obtain ⟨h1, h2, h3⟩ := hcond
    injection h with h4
    exact ⟨h1, h2, h3, h4.symm⟩
  · exact absurd h (by simp)

theorem hgw_zero (piece : Piece) (board : Board) :
    SearchForWin.has_guaranteed_win piece 0 board =
      if board.next_player ≠ some piece.opponent then none
      else if board.has_winner = some piece then some true else some false := rfl

theorem hgwC_zero (piece : Piece) (cache : SFWCache) (prior : Board) (move : Nat) :
    SearchForWinCache.has_guaranteed_win piece 0 cache prior move =
      (if prior.next_player ≠ some piece then none
      else
        match prior.place move piece with
        | none => none
        | some board =>
          if board.has_winner = some piece then some (some true, cache)
          else some (none, cache)) := by
  conv_lhs => rw [SearchForWinCache.has_guaranteed_win.eq_def]

/-- C7 (amended): at search depth 0 the cached decider (any table) and the
plain decider agree move for move: both commit to the first immediately
winning candidate and decline otherwise.  (At depth ≥ 1 they diverge, see the
counterexample.) -/
theorem search_choose_agree_depth_zero (piece : Piece) (board : Board)
    (options : List Nat) (cache : SFWCache) (hwf : Wf board)
    (hnp : board.next_player = some piece)
    (h20 : 20 ≤ board.num_pieces_played) :
    (SearchForWinCache.choose piece 0 cache board options).map (fun r => r.1)
      = SearchForWin.choose piece 0 board options := by
  unfold SearchForWin.choose
  rw [if_neg (by omega)]
  unfold SearchForWinCache.choose
  induction options generalizing cache with
  | nil => rfl
  | cons col rest ih =>
    cases hpl : board.place col piece with
    | none =>
      have hcres : SearchForWinCache.has_guaranteed_win piece 0 cache board col = none := by
        rw [hgwC_zero, if_neg (by simp [hnp]), hpl]
      simp only [sfwcChooseGo, sfwChooseGo, hcres, hpl]
      rfl
    | some b' =>
      obtain ⟨hpe, hcol, hlt5, hb'⟩ := place_some_elim hpl
      have hnext : b'.next_player = some piece.opponent := by
        rw [hb']
        exact next_player_with_place board col piece hwf hcol
          (by unfold ROWS at hlt5; omega) hnp
      by_cases hwin : b'.has_winner = some piece
      · have hcres : SearchForWinCache.has_guaranteed_win piece 0 cache board col
            = some (some true, cache) := by
          rw [hgwC_zero, if_neg (by simp [hnp]), hpl]
          simp [hwin]
        have hpres : SearchForWin.has_guaranteed_win piece 0 b' = some true := by
          rw [hgw_zero, if_neg (by simp [hnext]), if_pos hwin]
        simp only [sfwcChooseGo, sfwChooseGo, hcres, hpl, hpres]
        rfl
      · have hcres : SearchForWinCache.has_guaranteed_win piece 0 cache board col
            = some (none, cache) := by
          rw [hgwC_zero, if_neg (by simp [hnp]), hpl]
          simp [hwin]
        have hpres : SearchForWin.has_guaranteed_win piece 0 b' = some false := by
          rw [hgw_zero, if_neg (by simp [hnext]), if_neg hwin]
        simp only [sfwcChooseGo, sfwChooseGo, hcres, hpl, hpres, reduceIte]
        exact ih cache

/-- C7 (witness): depth-0 agreement on the twenty-piece board. -/
theorem search_choose_agree_depth_zero_witness :
    Wf twentyBoard ∧
    (SearchForWinCache.choose Piece.Red 0 [] twentyBoard [1, 4, 5]).map (fun r => r.1)
      = SearchForWin.choose Piece.Red 0 twentyBoard [1, 4, 5] :=
  ⟨by decide, search_choose_agree_depth_zero Piece.Red twentyBoard [1, 4, 5] []
    (by decide) (by decide) (by decide)⟩

/-! ## Round-trip lemmas for the text encoding -/

theorem slash_not_mem_renderRowGo (row : List Piece) :
    ∀ p, '/' ∉ renderRowGo p row := by
  induction row with
  | nil => intro p; simp [renderRowGo]
  | cons x rest ih =>
    intro p
    cases x
    · simpa [renderRowGo] using ih (p + 1)
    · simp [renderRowGo, List.mem_append, List.mem_replicate]
      exact ih 0
    · simp [renderRowGo, List.mem_append, List.mem_replicate]
      exact ih 0

theorem splitSlash_no_slash (xs : List Char) (h : '/' ∉ xs) : splitSlash xs = [xs] := by
  induction xs with
  | nil => rfl
  | cons ch rest ih =>
    have hch : ¬ch = '/' := by
      intro e
      exact h (by simp [e])
    have h2 : '/' ∉ rest := fun hm => h (by simp [hm])
    simp [splitSlash, hch, ih h2]

theorem splitSlash_append (xs ys : List Char) (h : '/' ∉ xs) :
    splitSlash (xs ++ '/' :: ys) = xs :: splitSlash ys := by
  induction xs with
  | nil => simp [splitSlash]
  | cons ch rest ih =>
    have hch : ¬ch = '/' := by
      intro e
      exact h (by simp [e])
    have h2 : '/' ∉ rest := fun hm => h (by simp [hm])
    simp [splitSlash, hch, ih h2]

theorem splitSlash_renderRows (rows : List (List Piece)) (h : rows ≠ []) :
    splitSlash (renderRows rows) = rows.map (fun row => renderRowGo 0 row) := by
  induction rows with
  | nil => exact absurd rfl h
  | cons row rest ih =>
    cases rest with
    | nil =>
      simp [renderRows, splitSlash_no_slash _ (slash_not_mem_renderRowGo row 0)]
    | cons r2 rest2 =>
      rw [show renderRows (row :: r2 :: rest2)
          = renderRowGo 0 row ++ '/' :: renderRows (r2 :: rest2) from rfl,
        splitSlash_append _ _ (slash_not_mem_renderRowGo row 0), ih (by simp)]
      simp

theorem parseChars_append {xs ys : List Char} {a c : List Piece}
    (hx : parseChars xs = some a) (hy : parseChars ys = some c) :
    parseChars (xs ++ ys) = some (a ++ c) := by
  induction xs generalizing a with
  | nil =>
    simp only [parseChars, Option.some.injEq] at hx
    subst hx
    simpa using hy
  | cons ch rest ih =>
    simp only [parseChars] at hx
    cases hcp : charPiece ch with
    | none => rw [hcp] at hx; simp at hx
    | some p =>
      rw [hcp] at hx
      cases hpr : parseChars rest with
      | none => rw [hpr] at hx; simp at hx
      | some ps =>
        rw [hpr] at hx
        simp only [Option.some.injEq] at hx
        subst hx
        show parseChars (ch :: (rest ++ ys)) = some (p :: ps ++ c)
        simp only [parseChars, hcp, ih hpr]
        rfl

theorem parseChars_length {xs : List Char} {l : List Piece}
    (h : parseChars xs = some l) : l.length = xs.length := by
  induction xs generalizing l with
  | nil => simp only [parseChars, Option.some.injEq] at h; subst h; rfl
  | cons ch rest ih =>
    simp only [parseChars] at h
    cases hcp : charPiece ch with
    | none => rw [hcp] at h; simp at h
    | some p =>
      rw [hcp] at h
      cases hpr : parseChars rest with
      | none => rw [hpr] at h; simp at h
      | some ps =>
        rw [hpr] at h
        simp only [Option.some.injEq] at h
        subst h
        simp [ih hpr]

theorem parseChars_replicate_space (p : Nat) :
    parseChars (List.replicate p ' ') = some (List.replicate p Piece.Empty) := by
  induction p with
  | zero => rfl
  | succ p ih => simp [List.replicate_succ, parseChars, ih,
      show charPiece ' ' = some Piece.Empty from rfl]

theorem renderRowGo_spec (row : List Piece) :
    ∀ p, ∃ l k, parseChars (renderRowGo p row) = some l ∧
      l ++ List.replicate k Piece.Empty = List.replicate p Piece.Empty ++ row := by
  induction row with
  | nil => intro p; exact ⟨[], p, rfl, by simp⟩
  | cons x rest ih =>
    intro p
    cases x
    · obtain ⟨l, k, h1, h2⟩ := ih (p + 1)
      refine ⟨l, k, h1, ?_⟩
      rw [h2, List.replicate_succ' p Piece.Empty, List.append_assoc]
      rfl
    · obtain ⟨l, k, h1, h2⟩ := ih 0
      refine ⟨List.replicate p Piece.Empty ++ Piece.Red :: l, k, ?_, ?_⟩
      · have hstep : parseChars ('R' :: renderRowGo 0 rest) = some (Piece.Red :: l) := by
          simp only [parseChars, show charPiece 'R' = some Piece.Red from rfl, h1]
        exact parseChars_append (parseChars_replicate_space p) hstep
      · simp only [List.nil_append, List.replicate] at h2
        rw [List.append_assoc]
        simp [h2]
    · obtain ⟨l, k, h1, h2⟩ := ih 0
      refine ⟨List.replicate p Piece.Empty ++ Piece.Blue :: l, k, ?_, ?_⟩
      · have hstep : parseChars ('B' :: renderRowGo 0 rest) = some (Piece.Blue :: l) := by
          simp only [parseChars, show charPiece 'B' = some Piece.Blue from rfl, h1]
        exact parseChars_append (parseChars_replicate_space p) hstep
      · simp only [List.nil_append, List.replicate] at h2
        rw [List.append_assoc]
        simp [h2]

theorem parseRow_renderRowGo (row : List Piece) (hlen : row.length = COLUMNS) :
    parseRow (renderRowGo 0 row) = some row := by
  obtain ⟨l, k, h1, h2⟩ := renderRowGo_spec row 0
  simp only [List.replicate, List.nil_append] at h2
  have hlk : l.length + k = COLUMNS := by
    have := congrArg List.length h2
    simp at this
    omega
  have hrl : (renderRowGo 0 row).length = l.length := (parseChars_length h1).symm
  unfold parseRow
  rw [if_pos (by omega), h1]
  show some (l ++ List.replicate (COLUMNS - (renderRowGo 0 row).length) Piece.Empty)
      = some row
  rw [hrl, show COLUMNS - l.length = k from by omega, h2]

theorem parseRows_map (rows : List (List Piece))
    (hlen : ∀ r ∈ rows, r.length = COLUMNS) :
    parseRows (rows.map (fun row => renderRowGo 0 row)) = some rows := by
  induction rows with
  | nil => rfl
  | cons row rest ih =>
    simp only [List.map_cons, parseRows,
      parseRow_renderRowGo row (hlen row (by simp)),
      ih (fun r hr => hlen r (by simp [hr]))]

theorem toArray_length (b : Board) : b.toArray.length = ROWS := by
  simp [Board.toArray]

theorem toArray_row_length (b : Board) : ∀ r ∈ b.toArray, r.length = COLUMNS := by
  intro r hr
  simp only [Board.toArray, List.mem_map] at hr
  obtain ⟨row, _, hrow⟩ := hr
  simp [← hrow]

theorem get_raw_eq_testBit (b : Board) (c r : Nat) :
    b.get_raw c r = if b.val.testBit (c * 9 + 3 + r) then Piece.Blue else Piece.Red := by
  unfold Board.get_raw
  rw [show c * 9 + r + 3 = c * 9 + 3 + r from by omega]
  rw [show (0b1 : Nat) = 1 from rfl, Nat.and_one_is_mod, Nat.shiftRight_eq_div_pow,
    Nat.testBit_to_div_mod]
  rcases Nat.mod_two_eq_zero_or_one (b.val / 2 ^ (c * 9 + 3 + r)) with h | h <;> simp [h]

theorem colCells_toArray (b : Board) (c : Nat) (hc : c < COLUMNS) :
    colCells b.toArray c = (List.range ROWS).map (fun r => b.get_checked c r) := by
  unfold colCells
  apply List.map_congr_left
  intro r hr
  simp only [List.mem_range] at hr
  have h1 : b.toArray.getD (ROWS - 1 - r) [] =
      (List.range COLUMNS).map (fun col => b.cellAt (ROWS - 1 - r) col) := by
    unfold Board.toArray
    rw [List.getD_eq_getElem?_getD, List.getElem?_map, List.getElem?_range
      (by unfold ROWS; omega)]
    rfl
  rw [h1, List.getD_eq_getElem?_getD, List.getElem?_map, List.getElem?_range hc]
  show b.cellAt (ROWS - 1 - r) c = b.get_checked c r
  unfold Board.cellAt
  rw [show ROWS - 1 - (ROWS - 1 - r) = r from by unfold ROWS at hr ⊢; omega]

/-- Bit-level effect of rebuilding one column of `from_array` from the
`get_checked` cells of a well-formed board: the column's field is copied from
`b`, every other bit of the accumulator is untouched. -/
theorem fromArrayColGo_spec (b : Board) (c : Nat) (hc : c < COLUMNS)
    (hh : b.column_height c ≤ ROWS) (hd : dataBits b c < 2 ^ b.column_height c) :
    ∀ (n : Nat), ∀ k, k + n = ROWS → k ≤ b.column_height c →
      ∀ (bk : Board), bk.val < 2 ^ 63 →
        (∀ r, r < ROWS → k ≤ r → bk.val.testBit (c * 9 + 3 + r) = false) →
        ∀ i,
          (fromArrayColGo c bk k
            ((List.range' k n).map (fun r => b.get_checked c r))).val.testBit i =
          if c * 9 ≤ i ∧ i < c * 9 + 3 then (b.column_height c).testBit (i - c * 9)
          else if c * 9 + 3 ≤ i ∧ i < c * 9 + 9 ∧ k ≤ i - (c * 9 + 3) then
            b.val.testBit i
          else bk.val.testBit i := by
  intro n
  induction n with
  | zero =>
    intro k hkn hkh bk hbk hinv i
    have hk6 : k = 6 := by unfold ROWS at hkn; omega
    have hh6 : b.column_height c = 6 := by
      unfold ROWS at hh
      omega
    subst hk6
    show (bk.set_column_height c 6).val.testBit i = _
    rw [testBit_set_column_height bk c 6 i (by omega)
      (lt_of_lt_of_le hbk (Nat.pow_le_pow_right (by omega) (by omega)))]
    by_cases h1 : c * 9 ≤ i ∧ i < c * 9 + 3
    · rw [if_pos h1, if_pos h1, hh6]
    · rw [if_neg h1, if_neg h1]
      by_cases h2 : c * 9 + 3 ≤ i ∧ i < c * 9 + 9 ∧ 6 ≤ i - (c * 9 + 3)
      · exact absurd h2 (by omega)
      · rw [if_neg h2]
  | succ n ih =>
    intro k hkn hkh bk hbk hinv i
    have hk6 : k < 6 := by unfold ROWS at hkn; omega
    rw [List.range'_succ, List.map_cons]
    by_cases hhk : b.column_height c ≤ k
    · have hkh2 : b.column_height c = k := by omega
      have hcell : b.get_checked c k = Piece.Empty := by
        unfold Board.get_checked
        rw [if_pos hhk]
      rw [hcell]
      show (bk.set_column_height c k).val.testBit i = _
      rw [testBit_set_column_height bk c k i (by omega)
        (lt_of_lt_of_le hbk (Nat.pow_le_pow_right (by omega) (by omega)))]
      by_cases h1 : c * 9 ≤ i ∧ i < c * 9 + 3
      · rw [if_pos h1, if_pos h1, hkh2]
      · rw [if_neg h1, if_neg h1]
        by_cases h2 : c * 9 + 3 ≤ i ∧ i < c * 9 + 9 ∧ k ≤ i - (c * 9 + 3)
        · rw [if_pos h2]
          have hr6 : i - (c * 9 + 3) < 6 := by omega
          have hbkbit := hinv (i - (c * 9 + 3)) (by unfold ROWS; omega) h2.2.2
          rw [show c * 9 + 3 + (i - (c * 9 + 3)) = i from by omega] at hbkbit
          rw [hbkbit]
          have hdb : (dataBits b c).testBit (i - (c * 9 + 3)) = false := by
            apply Nat.testBit_lt_two_pow
            calc dataBits b c < 2 ^ b.column_height c := hd
            _ ≤ 2 ^ (i - (c * 9 + 3)) := Nat.pow_le_pow_right (by omega) (by omega)
          rw [testBit_dataBits,
            show c * 9 + 3 + (i - (c * 9 + 3)) = i from by omega] at hdb
          rcases Bool.and_eq_false_iff.mp hdb with hfa | hfa
          · exact hfa.symm
          · exact absurd hr6 (by simpa using hfa)
        · rw [if_neg h2]
    · have hklt : k < b.column_height c := by omega
      have hcell : b.get_checked c k = b.get_raw c k := by
        unfold Board.get_checked
        rw [if_neg (by omega)]
      rw [hcell, get_raw_eq_testBit]
      by_cases hbit : b.val.testBit (c * 9 + 3 + k) = true
      · rw [if_pos hbit]
        show (fromArrayColGo c (bk.set_blue c k) (k + 1) _).val.testBit i = _
        rw [ih (k + 1) (by omega) (by omega) (bk.set_blue c k)
          (set_blue_lt bk c k hbk (by unfold COLUMNS at hc; omega) (by omega))
          (fun r hr hkr => by
            rw [testBit_set_blue]
            rw [hinv r hr (by omega)]
            simp
            omega)
          i]
        by_cases h1 : c * 9 ≤ i ∧ i < c * 9 + 3
        · rw [if_pos h1, if_pos h1]
        · rw [if_neg h1, if_neg h1]
          by_cases h2 : c * 9 + 3 ≤ i ∧ i < c * 9 + 9 ∧ k + 1 ≤ i - (c * 9 + 3)
          · rw [if_pos h2, if_pos ⟨h2.1, h2.2.1, by omega⟩]
          · rw [if_neg h2]
            by_cases h3 : c * 9 + 3 ≤ i ∧ i < c * 9 + 9 ∧ k ≤ i - (c * 9 + 3)
            · rw [if_pos h3]
              have hik : i = c * 9 + 3 + k := by omega
              rw [testBit_set_blue, hik, hbit]
              simp
            · rw [if_neg h3, testBit_set_blue]
              have he : decide (i = c * 9 + 3 + k) = false := by simp; omega
              rw [he]
              simp
      · have hbf : b.val.testBit (c * 9 + 3 + k) = false := by
          simpa using hbit
        rw [if_neg hbit]
        show (fromArrayColGo c bk (k + 1) _).val.testBit i = _
        rw [ih (k + 1) (by omega) (by omega) bk hbk
          (fun r hr hkr => hinv r hr (by omega)) i]
        by_cases h1 : c * 9 ≤ i ∧ i < c * 9 + 3
        · rw [if_pos h1, if_pos h1]
        · rw [if_neg h1, if_neg h1]
          by_cases h2 : c * 9 + 3 ≤ i ∧ i < c * 9 + 9 ∧ k + 1 ≤ i - (c * 9 + 3)
          · rw [if_pos h2, if_pos ⟨h2.1, h2.2.1, by omega⟩]
          · rw [if_neg h2]
            by_cases h3 : c * 9 + 3 ≤ i ∧ i < c * 9 + 9 ∧ k ≤ i - (c * 9 + 3)
            · rw [if_pos h3]
              have hik : i = c * 9 + 3 + k := by omega
              rw [hik, hinv k (by unfold ROWS; omega) (by omega), hbf]
            · rw [if_neg h3]

theorem Board.val_inj {a b : Board} (h : a.val = b.val) : a = b := by
  cases a
  cases b
  simpa using h

theorem from_array_toArray (b : Board) (hwf : Wf b) :
    Board.from_array b.toArray = b := by
  obtain ⟨hb, hall⟩ := hwf
  have hfold : ∀ m, m ≤ COLUMNS →
      ∀ i, ((List.range m).foldl
          (fun bk c => fromArrayColGo c bk 0 (colCells b.toArray c))
          Board.EMPTY).val.testBit i
        = (b.val.testBit i && decide (i < 9 * m)) := by
    intro m
    induction m with
    | zero =>
      intro _ i
      simp [Board.EMPTY]
    | succ m ihm =>
      intro hm i
      rw [List.range_succ, List.foldl_append]
      simp only [List.foldl_cons, List.foldl_nil]
      have hprev := ihm (by omega)
      set prev := (List.range m).foldl
        (fun bk c => fromArrayColGo c bk 0 (colCells b.toArray c)) Board.EMPTY with hprevdef
      have hprev63 : prev.val < 2 ^ 63 := by
        apply Nat.lt_pow_two_of_testBit
        intro j hj
        rw [hprev j]
        have hbj : b.val.testBit j = false :=
          Nat.testBit_lt_two_pow
            (lt_of_lt_of_le hb (Nat.pow_le_pow_right (by omega) hj))
        simp [hbj]
      have hdata : ∀ r, r < ROWS → 0 ≤ r →
          prev.val.testBit (m * 9 + 3 + r) = false := by
        intro r hr _
        rw [hprev]
        have : decide (m * 9 + 3 + r < 9 * m) = false := by simp; omega
        rw [this]
        simp
      obtain ⟨hhm, hdm⟩ := hall m (by omega)
      rw [colCells_toArray b m (by omega), List.range_eq_range',
        fromArrayColGo_spec b m (by omega) hhm hdm ROWS 0 (by omega) (by omega)
          prev hprev63 hdata i]
      by_cases h1 : m * 9 ≤ i ∧ i < m * 9 + 3
      · rw [if_pos h1, testBit_column_height,
          show m * 9 + (i - m * 9) = i from by omega]
        have e1 : decide (i - m * 9 < 3) = true := by simp; omega
        have e2 : decide (i < 9 * (m + 1)) = true := by simp; omega
        rw [e1, e2]
      · rw [if_neg h1]
        by_cases h2 : m * 9 + 3 ≤ i ∧ i < m * 9 + 9 ∧ 0 ≤ i - (m * 9 + 3)
        · rw [if_pos h2]
          have e2 : decide (i < 9 * (m + 1)) = true := by simp; omega
          rw [e2]
          simp
        · rw [if_neg h2, hprev i]
          have hout : i < m * 9 ∨ m * 9 + 9 ≤ i := by omega
          rcases hout with hlt | hge
          · have e1 : decide (i < 9 * m) = true := by simp; omega
            have e2 : decide (i < 9 * (m + 1)) = true := by simp; omega
            rw [e1, e2]
          · have e1 : decide (i < 9 * m) = false := by simp; omega
            have e2 : decide (i < 9 * (m + 1)) = false := by simp; omega
            rw [e1, e2]
  apply Board.val_inj
  apply Nat.eq_of_testBit_eq
  intro i
  unfold Board.from_array
  rw [hfold COLUMNS (le_refl _) i]
  by_cases h63 : i < 63
  · have e1 : decide (i < 9 * COLUMNS) = true := by unfold COLUMNS; simp; omega
    rw [e1]
    simp
  · have e1 : decide (i < 9 * COLUMNS) = false := by unfold COLUMNS; simp; omega
    have e2 : b.val.testBit i = false :=
      Nat.testBit_lt_two_pow
        (lt_of_lt_of_le hb (Nat.pow_le_pow_right (by omega) (by omega)))
    rw [e1, e2]
    simp

/-- C10: the text encoding round-trips on every board of the data model —
well-formed representation and Red/Blue counts balanced (equal or Red ahead
by one), which is exactly the balance `Board::from` itself asserts. -/
theorem from_short_string_roundtrip (b : Board) (hwf : Wf b)
    (hbal : countPiece b.toArray Piece.Red = countPiece b.toArray Piece.Blue ∨
      countPiece b.toArray Piece.Red = countPiece b.toArray Piece.Blue + 1) :
    Board.from_string b.short_string = some b := by
  have hnonnil : b.toArray ≠ [] := by
    intro hnil
    have hl := toArray_length b
    rw [hnil] at hl
    unfold ROWS at hl
    simp at hl
  have hsplit := splitSlash_renderRows b.toArray hnonnil
  unfold Board.short_string Board.from_string
  show (if (splitSlash (renderRows b.toArray)).length = ROWS then
      match parseRows (splitSlash (renderRows b.toArray)) with
      | some arr =>
        if countPiece arr Piece.Red = countPiece arr Piece.Blue ∨
            countPiece arr Piece.Red = countPiece arr Piece.Blue + 1
        then some (Board.from_array arr) else none
      | none => none
    else none) = some b
  rw [hsplit]
  have hlen : (b.toArray.map (fun row => renderRowGo 0 row)).length = ROWS := by
    rw [List.length_map, toArray_length]
  rw [if_pos hlen, parseRows_map b.toArray (toArray_row_length b)]
  show (if countPiece b.toArray Piece.Red = countPiece b.toArray Piece.Blue ∨
      countPiece b.toArray Piece.Red = countPiece b.toArray Piece.Blue + 1
    then some (Board.from_array b.toArray) else none) = some b
  rw [if_pos hbal, from_array_toArray b hwf]

/-- C10 (witness): the round-trip on a three-piece board. -/
theorem from_short_string_roundtrip_witness :
    Wf rtBoard ∧ Board.from_string rtBoard.short_string = some rtBoard :=
  ⟨by decide, from_short_string_roundtrip rtBoard (by decide) (Or.inr (by decide))⟩
